import Mathlib

/-!
Verification development for the yt-premium pipeline script (yt.py).

The script is embedded shallowly: strings are lists of characters,
the filesystem is a partial map from file names to file contents,
external processes (the muxer, the per-cue translation service) and the
scheduler of the cooperative-concurrency regime are oracles passed in as
parameters.  Every definition mirrors the corresponding Python function.
-/

set_option autoImplicit false

/-- Character strings, as plain lists of characters. -/
abbrev Str := List Char

/-- The character substitution performed by `str.replace('.', ',')` on the
timing line in `combine_srt` (a single-character pattern replacement is a
character-wise map). -/
def dotComma (c : Char) : Char := if c = '.' then ',' else c

/-- The test `re.match(r'^\d{2}:\d{2}:\d{2}', line)` used by `parse_vtt`:
the line starts with two digits, a colon, two digits, a colon, two digits. -/
def isTC : Str → Bool
  | c0 :: c1 :: c2 :: c3 :: c4 :: c5 :: c6 :: c7 :: _ =>
    c0.isDigit && c1.isDigit && (c2 == ':') && c3.isDigit && c4.isDigit &&
      (c5 == ':') && c6.isDigit && c7.isDigit
  | _ => false

/-- Left-to-right, non-overlapping split on the separator `s :: ss`,
mirroring Python's `str.split(sep)` for a non-empty separator. -/
def splitOnSepCore (s : Char) (ss : Str) : Str → List Str
  | [] => [[]]
  | c :: rest =>
    if _h : (s :: ss).isPrefixOf (c :: rest) then
      [] :: splitOnSepCore s ss (rest.drop ss.length)
    else
      match splitOnSepCore s ss rest with
      | p :: ps => (c :: p) :: ps
      | [] => [[c]]
termination_by l => l.length
decreasing_by
  · simp only [List.length_drop, List.length_cons]
    omega
  · simp only [List.length_cons]
    omega

/-- Python's `str.split(sep)`; the empty-separator case is never used
(Python raises on it). -/
def splitOnSep (sep : Str) (l : Str) : List Str :=
  match sep with
  | [] => [l]
  | s :: ss => splitOnSepCore s ss l

/-- Python's `sep.join(parts)`. -/
def joinSep (sep : Str) : List Str → Str
  | [] => []
  | [p] => p
  | p :: ps => p ++ sep ++ joinSep sep ps

/-- Python's `sub in s` substring test. -/
def containsStr (sub : Str) : Str → Bool
  | [] => sub.isEmpty
  | c :: rest => sub.isPrefixOf (c :: rest) || containsStr sub rest

/-- Python's `str(n)` for a natural number: its decimal digits. -/
def natChars (n : Nat) : Str := Nat.toDigits 10 n

/-- Python's `str.strip()`: drop leading and trailing whitespace. -/
def trimChars (l : Str) : Str :=
  ((l.dropWhile Char.isWhitespace).reverse.dropWhile Char.isWhitespace).reverse

/-- The arrow separator `' --> '` of a timing line. -/
def arrowTail : Str := ['-', '-', '>', ' ']

/-- The five-character separator `' --> '`. -/
def arrowSep : Str := ' ' :: arrowTail

/-- `line.split(' --> ')`. -/
def splitArrow (l : Str) : List Str := splitOnSepCore ' ' arrowTail l

/-- `content.split('\n')`. -/
def splitNl (l : Str) : List Str := splitOnSepCore '\n' [] l

/-- One timed-caption entry, as built by `parse_vtt`:
`{'start_time': ..., 'end_time': ..., 'text': ...}`. -/
structure Cue where
  start_time : Str
  end_time : Str
  text : Str
deriving DecidableEq, Repr

/-- The scanning loop of `parse_vtt` over the list of lines: a line matching
the timecode pattern starts a cue block; the line is split on `' --> '` into
exactly two parts (a different number of parts raises, modelled as `none`);
the following up-to-two lines joined and stripped are the text; the scan
resumes three lines further on.  Other lines are skipped one by one. -/
def parseLoop : List Str → Option (List Cue)
  | [] => some []
  | l :: rest =>
    if isTC l then
      match splitArrow l with
      | [st, en] =>
        match parseLoop (rest.drop 2) with
        | some cs =>
          some (⟨st, en, trimChars (joinSep ['\n'] (rest.take 2))⟩ :: cs)
        | none => none
      | _ => none
    else parseLoop rest
termination_by l => l.length
decreasing_by
  · simp only [List.length_drop, List.length_cons]
    omega
  · simp only [List.length_cons]
    omega

/-- `parse_vtt(subtitle_content)`: split into lines and scan. -/
def parse_vtt (content : Str) : Option (List Cue) :=
  parseLoop (splitNl content)

/-- The loop of `combine_srt`, walking the entries with a running index while
reading `translated_texts[i]`; a missing index raises (modelled as `none`),
so nothing is produced.  Each entry contributes its 1-based number, the
timing line with `'.'` replaced by `','`, the translated text, and a blank
line. -/
def combineLoop : Nat → List Cue → List Str → Option (List Str)
  | _, [], _ => some []
  | _, _ :: _, [] => none
  | i, e :: es, t :: ts =>
    match combineLoop (i + 1) es ts with
    | some r =>
      some (natChars (i + 1) ::
        (e.start_time.map dotComma ++ arrowSep ++ e.end_time.map dotComma) ::
        t :: [] :: r)
    | none => none

/-- `combine_srt(entries, translated_texts)`: build the flat list of lines
and join with newlines. -/
def combine_srt (entries : List Cue) (texts : List Str) : Option Str :=
  (combineLoop 0 entries texts).map (joinSep ['\n'])

/-- Language markers and fixed argument strings used by the script. -/
def zhTWs : Str := ("zh-TW").data

/-- Marker `zh`. -/
def zhS : Str := ("zh").data

/-- Marker `en`. -/
def enS : Str := ("en").data

/-- Marker `ja`. -/
def jaS : Str := ("ja").data

/-- Fallback language tag `und`. -/
def undS : Str := ("und").data

/-- The subtitle extension `.vtt`. -/
def vttExt : Str := (".vtt").data

/-- The suffix `tw.vtt` appended by the translated-output naming. -/
def twVtt : Str := ("tw.vtt").data

/-- The `-i` input flag. -/
def iFlag : Str := ("-i").data

/-- The `-map` flag. -/
def mapFlag : Str := ("-map").data

/-- The muxer executable name. -/
def ffmpegS : Str := ("ffmpeg").data

/-- The per-subtitle-stream metadata key stem `-metadata:s:s:`. -/
def metaKey : Str := ("-metadata:s:s:").data

/-- The metadata value stem `language=`. -/
def langEq : Str := ("language=").data

/-- The output container extension `.mkv`. -/
def mkvExt : Str := (".mkv").data

/-- Stream selector `0:v`. -/
def v0S : Str := ("0:v").data

/-- Stream selector `1:a`. -/
def a1S : Str := ("1:a").data

/-- Codec flag `-c:v`. -/
def cvS : Str := ("-c:v").data

/-- Codec flag `-c:a`. -/
def caS : Str := ("-c:a").data

/-- Codec flag `-c:s`. -/
def csS : Str := ("-c:s").data

/-- Codec value `copy`. -/
def copyS : Str := ("copy").data

/-- Subtitle codec value `webvtt`. -/
def webvttS : Str := ("webvtt").data

/-- Stream-kind suffix `:s` of a subtitle map argument. -/
def sColonS : Str := (":s").data

/-- Sequencing of a list of fallible results: all succeed, in order, or the
whole batch fails (the aggregation behaviour of `asyncio.gather`). -/
def mapMO {α β : Type} (g : α → Option β) : List α → Option (List β)
  | [] => some []
  | a :: as =>
    match g a, mapMO g as with
    | some b, some bs => some (b :: bs)
    | _, _ => none

/-- The filesystem: a partial map from file names to file contents. -/
abbrev FS := Str → Option Str

/-- `os.path.exists(f)`. -/
def fileExists (fs : FS) (f : Str) : Bool := (fs f).isSome

/-- `check_file_integrity(filename)`: the file exists and is non-empty. -/
def check_file_integrity (fs : FS) (f : Str) : Bool :=
  match fs f with
  | some c => !c.isEmpty
  | none => false

/-- `os.remove(f)`. -/
def removeFile (fs : FS) (f : Str) : FS := fun n => if n = f then none else fs n

/-- Sequential deletion of a list of files. -/
def deleteAll (fs : FS) (files : List Str) : FS := files.foldl removeFile fs

/-- Writing a file. -/
def updateFS (fs : FS) (f c : Str) : FS := fun n => if n = f then some c else fs n

/-- The language-tag classification of a subtitle file name performed in
`main` (substring match in fixed priority order, defaulting to `und`). -/
def classify (f : Str) : Str :=
  if containsStr zhTWs f then zhTWs
  else if containsStr zhS f then zhS
  else if containsStr enS f then enS
  else if containsStr jaS f then jaS
  else undS

/-- The translated-output file name derivation of
`translate_subtitles_parallel`: remove every occurrence of `.vtt`, drop the
last two characters, and append `tw.vtt`. -/
def translatedName (file : Str) : Str :=
  let base := joinSep [] (splitOnSep vttExt file)
  base.take (base.length - 2) ++ twVtt

/-- A `-i file` segment for each subtitle input, in order. -/
def iSegs : List Str → List Str
  | [] => []
  | f :: r => iFlag :: f :: iSegs r

/-- The enumerated per-subtitle metadata directives built by
`merge_with_ffmpeg`: for each language at index `i`, the two arguments
`-metadata:s:s:i` and `language=lang`. -/
def metaBlock (i0 : Nat) : List Str → List Str
  | [] => []
  | l :: ls => (metaKey ++ natChars i0) :: (langEq ++ l) :: metaBlock (i0 + 1) ls

/-- The subtitle `-map` directives: `-map (i+2):s` for each subtitle input. -/
def mapBlock (i0 : Nat) : Nat → List Str
  | 0 => []
  | n + 1 => mapFlag :: (natChars i0 ++ sColonS) :: mapBlock (i0 + 1) n

/-- The subtitle-input loop of `merge_with_ffmpeg`: each existing, non-empty
named subtitle file contributes a `-i file` segment and joins the running
`subtitle_inputs` list; after each iteration, if the language list is
non-empty and its length equals the current number of collected inputs, the
whole metadata block is appended.  Returns the emitted command segment and
the final `subtitle_inputs`. -/
def subCmdLoop (fs : FS) (langs : List Str) : List Str → List Str → List Str × List Str
  | inputs, [] => ([], inputs)
  | inputs, f :: rest =>
    let step := if !f.isEmpty && fileExists fs f then ([iFlag, f], inputs ++ [f])
      else (([] : List Str), inputs)
    let seg2 := if !langs.isEmpty && langs.length == step.2.length then metaBlock 0 langs
      else []
    let tailRes := subCmdLoop fs langs step.2 rest
    (step.1 ++ seg2 ++ tailRes.1, tailRes.2)

/-- The full muxer argument list built by `merge_with_ffmpeg` (executable,
video and audio inputs, subtitle inputs with metadata, stream maps, codec
directives, output path). -/
def buildMuxCommand (fs : FS) (video audio : Str) (subs langs : List Str) (out : Str) :
    List Str :=
  let sl := subCmdLoop fs langs [] subs
  ffmpegS :: iFlag :: video :: iFlag :: audio ::
    (sl.1 ++ [mapFlag, v0S, mapFlag, a1S] ++
      (if !sl.2.isEmpty then mapBlock 2 sl.2.length else []) ++
      [cvS, copyS, caS, copyS, csS, webvttS, out ++ mkvExt])

/-- The observable outcome of one `merge_with_ffmpeg` call: whether the
external mux process was invoked, which files the function deleted, and the
final filesystem. -/
structure MergeOutcome where
  muxInvoked : Bool
  deleted : List Str
  fs : FS

/-- `merge_with_ffmpeg`: abort before invoking the muxer if the video or the
audio file is missing; otherwise invoke the external mux process (an oracle
taking the argument list and returning its success flag and the filesystem
it leaves behind); on a failed process or a missing/empty output file return
without deleting anything; on verified output delete every existing input
artifact. -/
def merge_with_ffmpeg (mux : List Str → Bool × FS) (fs : FS) (video audio : Str)
    (subs : List Str) (out : Str) (langs : List Str) : MergeOutcome :=
  if !fileExists fs video || !fileExists fs audio then ⟨false, [], fs⟩
  else
    let res := mux (buildMuxCommand fs video audio subs langs out)
    if !res.1 then ⟨true, [], res.2⟩
    else if check_file_integrity res.2 (out ++ mkvExt) then
      let toDelete := (video :: audio :: subs).filter
        (fun f => !f.isEmpty && fileExists res.2 f)
      ⟨true, toDelete, deleteAll res.2 toDelete⟩
    else ⟨true, [], res.2⟩

/-- The tail test of the `extract_base_filename` regular expression: optional
whitespace, an opening bracket, and somewhere later a closing bracket
immediately followed by a dot. -/
def matchesTail (l : Str) : Bool :=
  match l.dropWhile Char.isWhitespace with
  | '[' :: rest => containsStr ([']', '.']) rest
  | _ => false

/-- The lazy group of `extract_base_filename`: the shortest prefix whose
remainder matches the bracketed-identifier tail; `none` when no split
matches. -/
def ebase : Str → Option Str
  | [] => if matchesTail [] then some [] else none
  | c :: rest =>
    if matchesTail (c :: rest) then some []
    else (ebase rest).map (fun p => c :: p)

/-- `extract_base_filename(filename)`: the stripped lazy group on a match,
the whole name otherwise. -/
def extract_base (f : Str) : Str :=
  match ebase f with
  | some p => trimChars p
  | none => f

/-- `translate_subtitles_parallel(subtitle_file, target_lang)`: read the
file (a missing file raises, caught as `none`), short-circuit on
whitespace-only content, parse, translate every cue through the per-cue
oracle (any failed request aborts the batch), reassemble, and only then
write the translated file.  Returns the produced file name (or `none`) and
the resulting filesystem. -/
def translate_subtitles_parallel (oracle : Str → Option Str) (fs : FS) (file : Str) :
    Option Str × FS :=
  match fs file with
  | none => (none, fs)
  | some content =>
    if trimChars content = [] then (none, fs)
    else
      match parse_vtt content with
      | none => (none, fs)
      | some entries =>
        match mapMO (fun e => oracle e.text) entries with
        | none => (none, fs)
        | some texts =>
          match combine_srt entries texts with
          | none => (none, fs)
          | some out => (some (translatedName file), updateFS fs (translatedName file) out)

/-- The translation-source loop of `main`: for each language marker in
priority order, pick the first downloaded file containing the marker; if it
translates successfully stop, otherwise fall through to the next marker.
Returns the successful source, the translated file, and the filesystem. -/
def priorityLoop (oracle : Str → Option Str) (fs : FS) (files : List Str) :
    List Str → Option Str × Option Str × FS
  | [] => (none, none, fs)
  | lang :: rest =>
    match files.find? (fun f => containsStr lang f) with
    | none => priorityLoop oracle fs files rest
    | some tgt =>
      match translate_subtitles_parallel oracle fs tgt with
      | (some t, fs1) => (some tgt, some t, fs1)
      | (none, fs1) => priorityLoop oracle fs1 files rest

/-- The fixed priority list `[zh, en, ja]`. -/
def langPriority : List Str := [zhS, enS, jaS]

/-- The translation phase of `main`: skipped entirely when a `zh-TW`
subtitle already exists, otherwise the priority loop. -/
def translation_phase (oracle : Str → Option Str) (fs : FS) (files : List Str) :
    Option Str × Option Str × FS :=
  if files.any (fun f => containsStr zhTWs f) then (none, none, fs)
  else priorityLoop oracle fs files langPriority

/-- The pure candidate selection of the priority scan (lines 246-248 of the
script): the first downloaded file containing `zh`, otherwise the first
containing `en`, otherwise the first containing `ja`. -/
def selectTranslationSource (files : List Str) : Option Str :=
  match files.find? (fun f => containsStr zhS f) with
  | some f => some f
  | none =>
    match files.find? (fun f => containsStr enS f) with
    | some f => some f
    | none => files.find? (fun f => containsStr jaS f)

/-- The tail of `main` after the downloads: verify that the video file, the
audio file and every originally downloaded subtitle file exist and are
non-empty (a missing discovery result makes the generator raise before any
mux), then append the optional translated subtitle, classify every subtitle,
and merge. -/
def main_post (mux : List Str → Bool × FS) (fs : FS) (vf af : Option Str)
    (files : List Str) (tr : Option Str) : MergeOutcome :=
  match vf, af with
  | some v, some a =>
    if (v :: a :: files).all (fun f => check_file_integrity fs f) then
      let subs := files ++ tr.toList
      merge_with_ffmpeg mux fs v a subs (extract_base v) (subs.map classify)
    else ⟨false, [], fs⟩
  | _, _ => ⟨false, [], fs⟩

/-- The run model: the translation phase followed by the merge tail. -/
def main_model (oracle : Str → Option Str) (mux : List Str → Bool × FS) (fs : FS)
    (files : List Str) (vf af : Option Str) : MergeOutcome :=
  let t := translation_phase oracle fs files
  main_post mux t.2.2 vf af files t.2.1

/-- One completion event of the cooperative-concurrency regime: task `i`
finishing delivers its result tagged with its request index; a failed task
delivers an error (`none`ed). -/
def taskEvent (tasks : List (Option Str)) (i : Nat) : Option (Nat × Str) :=
  match tasks.get? i with
  | some (some r) => some (i, r)
  | _ => none

/-- `asyncio.gather` storing each arriving result in the slot of its request
index: the output list is read off slot by slot. -/
def slotFill (events : List (Nat × Str)) (n : Nat) : Option (List Str) :=
  mapMO (fun i => (events.find? (fun p => p.1 == i)).map Prod.snd) (List.range n)

/-- The gather model: tasks complete in the scheduler-chosen `order`; any
failed task aborts the whole batch; otherwise the results are reassembled by
request index, not by completion time. -/
def gatherModel (order : List Nat) (tasks : List (Option Str)) : Option (List Str) :=
  match mapMO (taskEvent tasks) order with
  | none => none
  | some events => slotFill events tasks.length

/-- The successful result stored in task slot `i` (defaulting for absent or
failed slots). -/
def getV (tasks : List (Option Str)) (i : Nat) : Str :=
  match tasks.get? i with
  | some (some r) => r
  | _ => []

/-- A per-cue translation oracle whose every request succeeds. -/
def wOracleOk : Str → Option Str := fun t => some t

/-- The serialized timing line of a cue. -/
def cueLine (c : Cue) : Str :=
  c.start_time.map dotComma ++ arrowSep ++ c.end_time.map dotComma

/-- The flat line list produced by `combine_srt` starting at 0-based cue
index `i`. -/
def blocksFlat : Nat → List Cue → List Str → List Str
  | _, [], _ => []
  | _, _ :: _, [] => []
  | i, e :: es, t :: ts =>
    natChars (i + 1) :: cueLine e :: t :: [] :: blocksFlat (i + 1) es ts

/-- Structural facts holding of every cue produced by `parse_vtt`: its
reconstructed timing line matches the timecode pattern, splits back into
exactly its start and end, and neither part contains a newline. -/
def GoodCue (c : Cue) : Prop :=
  isTC (c.start_time ++ arrowSep ++ c.end_time) = true ∧
  splitArrow (c.start_time ++ arrowSep ++ c.end_time) = [c.start_time, c.end_time] ∧
  '\n' ∉ c.start_time ∧ '\n' ∉ c.end_time

/-- Concrete subtitle file name used in witnesses. -/
def wSub1 : Str := ("s1.en.vtt").data

/-- Concrete subtitle file name used in witnesses. -/
def wSub2 : Str := ("s2.ja.vtt").data

/-- Concrete video file name used in witnesses. -/
def wVid : Str := ("video [id].mp4").data

/-- Concrete audio file name used in witnesses. -/
def wAud : Str := ("audio [id].m4a").data

/-- Concrete single-cue caption document used in witnesses. -/
def wDoc : Str := ("00:00:01.000 --> 00:00:02.000\nhello").data

/-- Concrete filesystem used in witnesses: the four artifacts exist and are
non-empty. -/
def wfs1 : FS := fun n =>
  if n = wSub1 ∨ n = wSub2 ∨ n = wVid ∨ n = wAud then some wDoc else none

/-- A per-cue translation oracle whose every request fails. -/
def wOracleFail : Str → Option Str := fun _ => none

/-- A mux process oracle that exits non-zero and leaves the filesystem as it
found it. -/
def wMuxFail : List Str → Bool × FS := fun _ => (false, wfs1)

/-- Counterexample source document: one well-formed cue. -/
def ceDoc : Str := ("00:00:01.000 --> 00:00:02.000\nhello").data

/-- Counterexample translated text: three lines, the third shaped like a
timing line. -/
def ceText : Str := ("a\nb\n00:00:05.000 --> 00:00:06.000").data

/-- The cue parsed from the counterexample document. -/
def ceEntry : Cue := ⟨("00:00:01.000").data, ("00:00:02.000").data, ("hello").data⟩

/-- The document serialized from the counterexample cue and text. -/
def ceOut : Str :=
  ("1\n00:00:01,000 --> 00:00:02,000\na\nb\n00:00:05.000 --> 00:00:06.000\n").data

example : parse_vtt ("00:00:01.000 --> 00:00:02.000\nhello").data =
    some [⟨("00:00:01.000").data, ("00:00:02.000").data, ("hello").data⟩] := by
  simp +decide [parse_vtt, parseLoop, splitNl, splitArrow, splitOnSepCore, isTC,
    trimChars, joinSep, arrowTail]

example :
    combine_srt [⟨("00:00:01.000").data, ("00:00:02.000").data, ("hello").data⟩]
      [("hi").data] =
    some ("1\n00:00:01,000 --> 00:00:02,000\nhi\n").data := by
  decide

theorem isPrefixOf_exists : ∀ (p l : Str), p.isPrefixOf l = true → ∃ t : Str, l = p ++ t := by
  intro p
  induction p with
  | nil => intro l _; exact ⟨l, rfl⟩
  | cons a as ih =>
    intro l h
    cases l with
    | nil => simp [List.isPrefixOf] at h
    | cons b bs =>
      simp only [List.isPrefixOf, Bool.and_eq_true, beq_iff_eq] at h
      obtain ⟨rfl, h2⟩ := h
      obtain ⟨t, rfl⟩ := ih bs h2
      exact ⟨t, rfl⟩

theorem splitCore_ne_nil (s : Char) (ss : Str) (l : Str) : splitOnSepCore s ss l ≠ [] := by
  cases l with
  | nil => simp [splitOnSepCore]
  | cons c rest =>
    rw [splitOnSepCore]
    split
    · simp
    · split <;> simp

theorem joinSep_splitCore (s : Char) (ss : Str) :
    ∀ l : Str, joinSep (s :: ss) (splitOnSepCore s ss l) = l := by
  intro l
  induction l using splitOnSepCore.induct s ss with
  | case1 => simp [splitOnSepCore, joinSep]
  | case2 c rest h ih =>
    rw [splitOnSepCore, dif_pos h]
    obtain ⟨q, qs, hS⟩ : ∃ q qs, splitOnSepCore s ss (rest.drop ss.length) = q :: qs := by
      cases hS : splitOnSepCore s ss (rest.drop ss.length) with
      | nil => exact absurd hS (splitCore_ne_nil s ss _)
      | cons q qs => exact ⟨q, qs, rfl⟩
    rw [hS] at ih ⊢
    show [] ++ (s :: ss) ++ joinSep (s :: ss) (q :: qs) = c :: rest
    obtain ⟨t, ht⟩ := isPrefixOf_exists _ _ h
    have hc : c = s ∧ rest = ss ++ t := by
      simpa using ht
    obtain ⟨rfl, rfl⟩ := hc
    simp only [List.drop_left] at ih
    simp [ih]
  | case3 c rest h p ps hrec ih =>
    rw [splitOnSepCore, dif_neg h, hrec]
    rw [hrec] at ih
    cases ps with
    | nil => simpa [joinSep] using ih
    | cons q qs =>
      show (c :: p) ++ (s :: ss) ++ joinSep (s :: ss) (q :: qs) = c :: rest
      simpa [joinSep] using ih
  | case4 c rest h hrec ih => exact absurd hrec (splitCore_ne_nil s ss rest)

theorem combineLoop_eq_none :
    ∀ (es : List Cue) (i : Nat) (ts : List Str),
      (combineLoop i es ts = none ↔ ts.length < es.length) := by
  intro es
  induction es with
  | nil => intro i ts; simp [combineLoop]
  | cons e es ih =>
    intro i ts
    cases ts with
    | nil => simp [combineLoop]
    | cons t ts' =>
      cases hrec : combineLoop (i + 1) es ts' with
      | none =>
        have h1 := (ih (i + 1) ts').mp hrec
        simp [combineLoop, hrec]
        omega
      | some r =>
        have h1 : ¬ ts'.length < es.length := by
          intro hl
          simp [(ih (i + 1) ts').mpr hl] at hrec
        simp [combineLoop, hrec]
        omega

theorem mapMO_none_of_mem {α β : Type} (g : α → Option β) :
    ∀ (l : List α), (∃ x ∈ l, g x = none) → mapMO g l = none := by
  intro l
  induction l with
  | nil => rintro ⟨x, hx, _⟩; exact absurd hx (List.not_mem_nil x)
  | cons a as ih =>
    rintro ⟨x, hx, hgx⟩
    rcases List.mem_cons.mp hx with rfl | hx'
    · simp [mapMO, hgx]
    · cases hga : g a with
      | none => simp [mapMO, hga]
      | some b => simp [mapMO, hga, ih ⟨x, hx', hgx⟩]

theorem translate_shape (oracle : Str → Option Str) (fs : FS) (file : Str) :
    translate_subtitles_parallel oracle fs file = ((none : Option Str), fs) ∨
    ∃ out, translate_subtitles_parallel oracle fs file =
      (some (translatedName file), updateFS fs (translatedName file) out) := by
  unfold translate_subtitles_parallel
  cases hfs : fs file with
  | none => exact Or.inl rfl
  | some content =>
    dsimp only
    by_cases ht : trimChars content = []
    · rw [if_pos ht]
      exact Or.inl rfl
    · rw [if_neg ht]
      cases hp : parse_vtt content with
      | none => exact Or.inl rfl
      | some entries =>
        dsimp only
        cases hm : mapMO (fun e => oracle e.text) entries with
        | none => exact Or.inl rfl
        | some texts =>
          dsimp only
          cases hcb : combine_srt entries texts with
          | none => exact Or.inl rfl
          | some out => exact Or.inr ⟨out, rfl⟩

theorem translate_fail_fs (oracle : Str → Option Str) (fs : FS) (file : Str)
    (h : (translate_subtitles_parallel oracle fs file).1 = none) :
    (translate_subtitles_parallel oracle fs file).2 = fs := by
  rcases translate_shape oracle fs file with heq | ⟨out, heq⟩
  · rw [heq]
  · rw [heq] at h
    exact absurd h (by simp)

/-- C10: there is a document containing a line that matches the leading
timecode pattern yet does not split on the arrow separator into exactly two
parts; on it the parser raises (the two-way destructuring fails) instead of
skipping the line, so parsing requires well-formed timing lines. -/
theorem parse_vtt_partial_on_malformed_timing :
    isTC (("00:00:00").data) = true ∧ parse_vtt (("00:00:00").data) = none := by
  constructor
  · decide
  · simp +decide [parse_vtt, parseLoop, splitNl, splitArrow, splitOnSepCore, isTC,
      arrowTail]

/-- C2 counterexample: one cue with two translated texts has differing
lengths, yet serialization succeeds (the extra text is silently ignored), so
the claim that every length mismatch fails is false on the code. -/
theorem combine_srt_mismatch_succeeds :
    (combine_srt [⟨("00:00:01.000").data, ("00:00:02.000").data, ("x").data⟩]
        [("a").data, ("b").data]).isSome = true ∧
    ([("a").data, ("b").data] : List Str).length ≠
      ([(⟨("00:00:01.000").data, ("00:00:02.000").data, ("x").data⟩ : Cue)]).length := by
  decide

/-- C2 (amended): serialization fails (raising, so nothing is returned)
exactly when the translated-text count is smaller than the cue count; equal
or larger counts succeed.  In particular the Scenario D count (one less)
fails, and whenever the translation step fails no file is written. -/
theorem combine_srt_alignment (entries : List Cue) (texts : List Str) :
    (combine_srt entries texts = none ↔ texts.length < entries.length) ∧
    (∀ oracle fs file, (translate_subtitles_parallel oracle fs file).1 = none →
      (translate_subtitles_parallel oracle fs file).2 = fs) := by
  constructor
  · unfold combine_srt
    cases h : combineLoop 0 entries texts with
    | none => simpa [h] using (combineLoop_eq_none entries 0 texts).mp h
    | some r =>
      have : ¬ texts.length < entries.length := by
        intro hl
        simp [(combineLoop_eq_none entries 0 texts).mpr hl] at h
      simpa [h] using this
  · exact fun oracle fs file h => translate_fail_fs oracle fs file h

theorem combine_srt_alignment_witness :
    (combine_srt [(⟨("00:00:01.000").data, ("00:00:02.000").data, ("x").data⟩ : Cue)] []
        = none ↔ ([] : List Str).length <
        [(⟨("00:00:01.000").data, ("00:00:02.000").data, ("x").data⟩ : Cue)].length) ∧
    (∀ oracle fs file, (translate_subtitles_parallel oracle fs file).1 = none →
      (translate_subtitles_parallel oracle fs file).2 = fs) :=
  combine_srt_alignment
    [(⟨("00:00:01.000").data, ("00:00:02.000").data, ("x").data⟩ : Cue)] []

/-- C9 counterexample: the name `a.vttb.en.vtt` ends in a two-character
language suffix right before the `.vtt` extension, but the code removes
every occurrence of `.vtt`, producing `ab.tw.vtt` instead of the
claim-prescribed `a.vttb.tw.vtt`. -/
theorem translatedName_counterexample :
    translatedName (("a.vttb.en.vtt").data) = ("ab.tw.vtt").data ∧
    ("ab.tw.vtt").data ≠ ("a.vttb.tw.vtt").data := by
  constructor
  · simp +decide [translatedName, splitOnSep, splitOnSepCore, vttExt, joinSep, twVtt]
  · decide

/-- C9 (amended): provided `.vtt` occurs in the input name only once, as the
trailing extension, the derivation is the specified one: the two-character
language suffix and the extension are stripped, and `tw` plus `.vtt` are
appended. -/
theorem translatedName_strips_suffix (base : Str) (a b : Char) (file : Str)
    (h : splitOnSep vttExt file = [base ++ [a, b], []]) :
    translatedName file = base ++ twVtt := by
  unfold translatedName
  rw [h]
  show (joinSep [] [base ++ [a, b], []]).take
      ((joinSep [] [base ++ [a, b], []]).length - 2) ++ twVtt = base ++ twVtt
  have hj : joinSep [] [base ++ [a, b], []] = base ++ [a, b] := by
    simp [joinSep]
  rw [hj]
  have hlen : (base ++ [a, b]).length - 2 = base.length := by
    simp
  rw [hlen, List.take_left]

theorem translatedName_strips_suffix_witness :
    translatedName (("movie [id].en.vtt").data) = ("movie [id].").data ++ twVtt :=
  translatedName_strips_suffix (("movie [id].").data) 'e' 'n'
    (("movie [id].en.vtt").data)
    (by simp +decide [splitOnSep, splitOnSepCore, vttExt])

theorem subCmdLoop_all (fs : FS) (langs : List Str) :
    ∀ (subs : List Str) (inputs0 : List Str),
      (∀ f ∈ subs, f ≠ [] ∧ fileExists fs f = true) →
      langs ≠ [] → langs.length = inputs0.length + subs.length → subs ≠ [] →
      subCmdLoop fs langs inputs0 subs =
        (iSegs subs ++ metaBlock 0 langs, inputs0 ++ subs) := by
  intro subs
  induction subs with
  | nil => intro inputs0 _ _ _ hne; exact absurd rfl hne
  | cons f rest ih =>
    intro inputs0 hex hlne hlen _
    have hf := hex f (List.mem_cons_self f rest)
    have hcond : (!f.isEmpty && fileExists fs f) = true := by
      rcases hf with ⟨hf1, hf2⟩
      simp [hf2, List.isEmpty_iff, hf1]
    show (let step := if !f.isEmpty && fileExists fs f then ([iFlag, f], inputs0 ++ [f])
        else (([] : List Str), inputs0)
      let seg2 := if !langs.isEmpty && langs.length == step.2.length then metaBlock 0 langs
        else []
      let tailRes := subCmdLoop fs langs step.2 rest
      (step.1 ++ seg2 ++ tailRes.1, tailRes.2)) =
      (iSegs (f :: rest) ++ metaBlock 0 langs, inputs0 ++ f :: rest)
    rw [if_pos hcond]
    cases rest with
    | nil =>
      have hlangs : (!langs.isEmpty && langs.length == (inputs0 ++ [f]).length) = true := by
        simp only [List.length_append, List.length_cons, List.length_nil] at hlen
        simp [List.isEmpty_iff, hlne, List.length_append, hlen]
      show ([iFlag, f] ++
          (if !langs.isEmpty && langs.length == (inputs0 ++ [f]).length then metaBlock 0 langs
            else []) ++ (subCmdLoop fs langs (inputs0 ++ [f]) []).1,
          (subCmdLoop fs langs (inputs0 ++ [f]) []).2) =
        (iSegs [f] ++ metaBlock 0 langs, inputs0 ++ [f])
      rw [if_pos hlangs]
      simp [subCmdLoop, iSegs]
    | cons g rest' =>
      have hlen1 : ¬ langs.length = inputs0.length + 1 := by
        simp only [List.length_cons] at hlen
        omega
      have hlangs : (!langs.isEmpty && langs.length == (inputs0 ++ [f]).length) = false := by
        simp [List.length_append, hlen1]
      show ([iFlag, f] ++
          (if !langs.isEmpty && langs.length == (inputs0 ++ [f]).length then metaBlock 0 langs
            else []) ++ (subCmdLoop fs langs (inputs0 ++ [f]) (g :: rest')).1,
          (subCmdLoop fs langs (inputs0 ++ [f]) (g :: rest')).2) =
        (iSegs (f :: g :: rest') ++ metaBlock 0 langs, inputs0 ++ f :: g :: rest')
      rw [if_neg (by rw [hlangs]; exact Bool.false_ne_true)]
      have hrec := ih (inputs0 ++ [f])
        (fun x hx => hex x (List.mem_cons_of_mem f hx)) hlne
        (by simp only [List.length_append, List.length_cons, List.length_nil] at hlen ⊢
            omega)
        (by simp)
      rw [hrec]
      simp [iSegs, List.append_assoc]

/-- C1: with `k` classified subtitle artifacts that all exist (and a
language list of the same length), the built muxer invocation lists the
subtitle files as inputs `2 .. 2+k-1` in classified-list order right after
the video and audio inputs, maps each of them with `-map (i+2):s`, and
attaches exactly one `-metadata:s:s:i language=tag` directive per subtitle
index `i`, whose tag is the classification of subtitle `i` (the metadata
block enumerates the language list positionally). -/
theorem mux_subtitle_alignment (fs : FS) (video audio out : Str) (subs langs : List Str)
    (hex : ∀ f ∈ subs, f ≠ [] ∧ fileExists fs f = true)
    (hlen : langs.length = subs.length) (hne : subs ≠ []) :
    buildMuxCommand fs video audio subs langs out =
      ffmpegS :: iFlag :: video :: iFlag :: audio ::
        (iSegs subs ++ metaBlock 0 langs ++ [mapFlag, v0S, mapFlag, a1S] ++
          mapBlock 2 subs.length ++
          [cvS, copyS, caS, copyS, csS, webvttS, out ++ mkvExt]) := by
  have hlne : langs ≠ [] := by
    intro h
    subst h
    simp only [List.length_nil] at hlen
    exact hne (List.length_eq_zero.mp hlen.symm)
  have hloop := subCmdLoop_all fs langs subs [] hex hlne (by simp [hlen]) hne
  unfold buildMuxCommand
  rw [hloop]
  dsimp only
  have hne2 : (!(([] : List Str) ++ subs).isEmpty) = true := by
    simp [List.isEmpty_iff, hne]
  rw [if_pos hne2]
  simp

theorem mux_subtitle_alignment_witness :
    buildMuxCommand wfs1 wVid wAud [wSub1, wSub2] [enS, jaS] (("out").data) =
      ffmpegS :: iFlag :: wVid :: iFlag :: wAud ::
        (iSegs [wSub1, wSub2] ++ metaBlock 0 [enS, jaS] ++
          [mapFlag, v0S, mapFlag, a1S] ++
          mapBlock 2 ([wSub1, wSub2] : List Str).length ++
          [cvS, copyS, caS, copyS, csS, webvttS, ("out").data ++ mkvExt]) :=
  mux_subtitle_alignment wfs1 wVid wAud (("out").data) [wSub1, wSub2] [enS, jaS]
    (by decide) (by decide) (by decide)

/-- C3: if the video artifact or the audio artifact is missing or zero-byte
at the verify-inputs checkpoint (including the case where no such artifact
was discovered at all), the orchestrator never invokes the external mux
process. -/
theorem integrity_gate (mux : List Str → Bool × FS) (fs : FS) (vf af : Option Str)
    (files : List Str) (tr : Option Str)
    (h : (∀ v, vf = some v → check_file_integrity fs v = false) ∨
         (∀ a, af = some a → check_file_integrity fs a = false)) :
    (main_post mux fs vf af files tr).muxInvoked = false := by
  unfold main_post
  cases vf with
  | none => rfl
  | some v =>
    cases af with
    | none => rfl
    | some a =>
      dsimp only
      rcases h with hv | ha
      · have hcv := hv v rfl
        rw [if_neg (by simp [List.all_cons, hcv])]
      · have hca := ha a rfl
        rw [if_neg (by simp [List.all_cons, hca])]

theorem integrity_gate_witness :
    (main_post wMuxFail (fun _ => none) (some wVid) (some wAud) [] none).muxInvoked
      = false :=
  integrity_gate wMuxFail (fun _ => none) (some wVid) (some wAud) [] none
    (Or.inl (fun v hv => by cases hv; rfl))

/-- C4: when the mux process exits non-zero, or the merged output file is
missing or empty afterwards, the orchestrator deletes nothing: its deletion
list is empty and the resulting filesystem is exactly the one the external
process left behind (or the original one if the process was never invoked). -/
theorem no_cleanup_on_failure (mux : List Str → Bool × FS) (fs : FS)
    (video audio out : Str) (subs langs : List Str)
    (h : (mux (buildMuxCommand fs video audio subs langs out)).1 = false ∨
         check_file_integrity (mux (buildMuxCommand fs video audio subs langs out)).2
           (out ++ mkvExt) = false) :
    (merge_with_ffmpeg mux fs video audio subs out langs).deleted = [] ∧
    (∀ f, (merge_with_ffmpeg mux fs video audio subs out langs).fs f =
      if (merge_with_ffmpeg mux fs video audio subs out langs).muxInvoked
      then (mux (buildMuxCommand fs video audio subs langs out)).2 f else fs f) := by
  unfold merge_with_ffmpeg
  by_cases hg : (!fileExists fs video || !fileExists fs audio) = true
  · rw [if_pos hg]
    exact ⟨rfl, fun f => rfl⟩
  · rw [if_neg hg]
    dsimp only
    rcases h with hmux | hout
    · rw [if_pos (by simp [hmux])]
      exact ⟨rfl, fun f => rfl⟩
    · by_cases hm1 : (mux (buildMuxCommand fs video audio subs langs out)).1 = false
      · rw [if_pos (by simp [hm1])]
        exact ⟨rfl, fun f => rfl⟩
      · rw [if_neg (by simp at hm1 ⊢; exact hm1)]
        rw [if_neg (by simp [hout])]
        exact ⟨rfl, fun f => rfl⟩

theorem no_cleanup_on_failure_witness :
    (merge_with_ffmpeg wMuxFail wfs1 wVid wAud [wSub1] (("out").data) [enS]).deleted
      = [] :=
  (no_cleanup_on_failure wMuxFail wfs1 wVid wAud (("out").data) [wSub1] [enS]
    (Or.inl rfl)).1

theorem check_integrity_exists (fs : FS) (f : Str)
    (h : check_file_integrity fs f = true) : fileExists fs f = true := by
  cases hf : fs f with
  | none => simp [check_file_integrity, hf] at h
  | some c => simp [fileExists, hf]

theorem merge_invoked (mux : List Str → Bool × FS) (fs : FS) (video audio out : Str)
    (subs langs : List Str)
    (hv : fileExists fs video = true) (ha : fileExists fs audio = true) :
    (merge_with_ffmpeg mux fs video audio subs out langs).muxInvoked = true := by
  unfold merge_with_ffmpeg
  rw [if_neg (by simp [hv, ha])]
  dsimp only
  split
  · rfl
  · split
    · rfl
    · rfl

theorem priorityLoop_none_fs (oracle : Str → Option Str) (files : List Str) :
    ∀ (langs : List Str) (fs : FS),
      (priorityLoop oracle fs files langs).2.1 = none →
      (priorityLoop oracle fs files langs).2.2 = fs := by
  intro langs
  induction langs with
  | nil => intro fs _; rfl
  | cons lang rest ih =>
    intro fs h
    unfold priorityLoop at h ⊢
    cases hf : files.find? (fun f => containsStr lang f) with
    | none =>
      simp only [hf] at h ⊢
      exact ih fs h
    | some tgt =>
      rcases translate_shape oracle fs tgt with heq | ⟨out, heq⟩
      · simp only [hf, heq] at h ⊢
        exact ih fs h
      · simp [hf, heq] at h

theorem translation_phase_none_fs (oracle : Str → Option Str) (fs : FS)
    (files : List Str)
    (h : (translation_phase oracle fs files).2.1 = none) :
    (translation_phase oracle fs files).2.2 = fs := by
  unfold translation_phase at h ⊢
  by_cases hz : files.any (fun f => containsStr zhTWs f) = true
  · rw [if_pos hz]
  · rw [if_neg hz] at h ⊢
    exact priorityLoop_none_fs oracle files langPriority fs h

/-- C7: given downloaded files tagged `en` and `ja` and none containing
`zh`, the resolver selects the first `en`-tagged file as the translation
source (fixed scan order zh, en, ja); the selection is `none` exactly when
no file contains any marker of the list; and the translation loop of `main`
indeed uses that `en` file as its source whenever its translation
succeeds. -/
theorem subtitle_priority (files : List Str) (e : Str)
    (hzh : ∀ f ∈ files, containsStr zhS f = false)
    (hen : files.find? (fun f => containsStr enS f) = some e) :
    selectTranslationSource files = some e ∧
    (∀ gs : List Str, selectTranslationSource gs = none ↔
      ∀ f ∈ gs, containsStr zhS f = false ∧ containsStr enS f = false ∧
        containsStr jaS f = false) ∧
    (∀ (oracle : Str → Option Str) (fs : FS),
      (translate_subtitles_parallel oracle fs e).1.isSome = true →
      (priorityLoop oracle fs files langPriority).1 = some e) := by
  have hzf : files.find? (fun f => containsStr zhS f) = none :=
    List.find?_eq_none.mpr (fun x hx => by simp [hzh x hx])
  refine ⟨?_, ?_, ?_⟩
  · unfold selectTranslationSource
    rw [hzf, hen]
  · intro gs
    constructor
    · intro hsel f hf
      unfold selectTranslationSource at hsel
      cases h1 : gs.find? (fun g => containsStr zhS g) with
      | some f0 => simp [h1] at hsel
      | none =>
        simp only [h1] at hsel
        cases h2 : gs.find? (fun g => containsStr enS g) with
        | some f0 => simp [h2] at hsel
        | none =>
          simp only [h2] at hsel
          refine ⟨?_, ?_, ?_⟩
          · simpa using List.find?_eq_none.mp h1 f hf
          · simpa using List.find?_eq_none.mp h2 f hf
          · simpa using List.find?_eq_none.mp hsel f hf
    · intro hall
      unfold selectTranslationSource
      rw [List.find?_eq_none.mpr (fun x hx => by simp [(hall x hx).1]),
        List.find?_eq_none.mpr (fun x hx => by simp [(hall x hx).2.1]),
        List.find?_eq_none.mpr (fun x hx => by simp [(hall x hx).2.2])]
  · intro oracle fs htr
    rcases translate_shape oracle fs e with heq | ⟨out, heq⟩
    · rw [heq] at htr
      simp at htr
    · simp only [langPriority, priorityLoop, hzf, hen, heq]

theorem subtitle_priority_witness :
    selectTranslationSource [wSub1, wSub2] = some wSub1 :=
  (subtitle_priority [wSub1, wSub2] wSub1 (by decide) (by decide)).1

/-- C8: a translation batch with any failing cue request writes no
translated file (the filesystem is returned unchanged) and reports failure
with `none`; and when the translation phase produces no translated
subtitle, the run still proceeds to the mux step with the original-language
subtitles only, invoking the muxer once the artifacts verify. -/
theorem translation_failure_degrades :
    (∀ (oracle : Str → Option Str) (fs : FS) (file content : Str)
        (entries : List Cue),
      fs file = some content → ¬ trimChars content = [] →
      parse_vtt content = some entries →
      (∃ e ∈ entries, oracle e.text = none) →
      translate_subtitles_parallel oracle fs file = (none, fs)) ∧
    (∀ (oracle : Str → Option Str) (mux : List Str → Bool × FS) (fs : FS)
        (files : List Str) (v a : Str),
      (translation_phase oracle fs files).2.1 = none →
      (v :: a :: files).all (fun f => check_file_integrity fs f) = true →
      main_model oracle mux fs files (some v) (some a) =
        merge_with_ffmpeg mux fs v a files (extract_base v) (files.map classify) ∧
      (main_model oracle mux fs files (some v) (some a)).muxInvoked = true) := by
  constructor
  · rintro oracle fs file content entries hfs ht hp ⟨e, he, hoe⟩
    unfold translate_subtitles_parallel
    rw [hfs]
    dsimp only
    rw [if_neg ht, hp]
    dsimp only
    rw [mapMO_none_of_mem (fun e => oracle e.text) entries ⟨e, he, by simpa using hoe⟩]
  · intro oracle mux fs files v a hnone hall
    have hfs := translation_phase_none_fs oracle fs files hnone
    unfold main_model
    dsimp only
    rw [hnone, hfs]
    unfold main_post
    dsimp only
    rw [if_pos hall]
    constructor
    · simp
    · have hall2 := hall
      simp only [List.all_cons, Bool.and_eq_true] at hall2
      have hv : fileExists fs v = true := check_integrity_exists fs v hall2.1
      have hau : fileExists fs a = true := check_integrity_exists fs a hall2.2.1
      simp only [Option.toList_none, List.append_nil]
      exact merge_invoked mux fs v a (extract_base v) files (files.map classify) hv hau

theorem translation_failure_degrades_witness :
    translate_subtitles_parallel wOracleFail wfs1 wSub1 = (none, wfs1) ∧
    (main_model wOracleFail wMuxFail wfs1 [wSub1] (some wVid) (some wAud)).muxInvoked
      = true := by
  constructor
  · exact translation_failure_degrades.1 wOracleFail wfs1 wSub1 wDoc
      [⟨("00:00:01.000").data, ("00:00:02.000").data, ("hello").data⟩]
      (by decide) (by decide)
      (by simp +decide [parse_vtt, parseLoop, splitNl, splitArrow, splitOnSepCore,
        isTC, trimChars, joinSep, arrowTail, wDoc])
      (by decide)
  · exact (translation_failure_degrades.2 wOracleFail wMuxFail wfs1 [wSub1] wVid wAud
      (by simp +decide [translation_phase, priorityLoop, langPriority,
        translate_subtitles_parallel, parse_vtt, parseLoop, splitNl, splitArrow,
        splitOnSepCore, isTC, trimChars, joinSep, arrowTail, mapMO, wOracleFail,
        wfs1, wSub1, wSub2, wVid, wAud, wDoc, zhTWs, zhS, enS, jaS, containsStr])
      (by decide)).2

theorem mapMO_congr_some {α β : Type} (g : α → Option β) (v : α → β) :
    ∀ l : List α, (∀ x ∈ l, g x = some (v x)) → mapMO g l = some (l.map v) := by
  intro l
  induction l with
  | nil => intro _; rfl
  | cons a as ih =>
    intro h
    have ha := h a (List.mem_cons_self a as)
    have hr := ih (fun x hx => h x (List.mem_cons_of_mem a hx))
    simp [mapMO, ha, hr]

theorem mapMO_map {α β γ : Type} (g : β → Option γ) (h : α → β) :
    ∀ l : List α, mapMO g (l.map h) = mapMO (fun x => g (h x)) l := by
  intro l
  induction l with
  | nil => rfl
  | cons a as ih => simp [mapMO, ih]

theorem mapMO_get? {α β : Type} (g : α → Option β) :
    ∀ (l : List α) (res : List β), mapMO g l = some res →
      ∀ i, res.get? i = (l.get? i).bind g := by
  intro l
  induction l with
  | nil =>
    intro res h i
    simp [mapMO] at h
    subst h
    simp
  | cons a as ih =>
    intro res h i
    unfold mapMO at h
    cases hga : g a with
    | none => rw [hga] at h; simp at h
    | some b =>
      rw [hga] at h
      cases hm : mapMO g as with
      | none => rw [hm] at h; simp at h
      | some bs =>
        rw [hm] at h
        simp only [Option.some.injEq] at h
        subst h
        cases i with
        | zero => simp [hga]
        | succ j => simpa using ih bs hm j

theorem find?_keyed (v : Nat → Str) (i : Nat) :
    ∀ order : List Nat, i ∈ order →
      (order.map (fun j => (j, v j))).find? (fun p => p.1 == i) = some (i, v i) := by
  intro order
  induction order with
  | nil => intro h; exact absurd h (List.not_mem_nil i)
  | cons j rest ih =>
    intro hmem
    by_cases hj : j = i
    · subst hj
      simp [List.find?]
    · have hr : i ∈ rest := by
        rcases List.mem_cons.mp hmem with h | h
        · exact absurd h.symm hj
        · exact h
      have hbeq : (j == i) = false := by simp [hj]
      simp [List.find?, hbeq, ih hr]

theorem mapMO_id_getV :
    ∀ tasks : List (Option Str), (∀ x ∈ tasks, x.isSome = true) →
      mapMO (fun o => o) tasks =
        some ((List.range tasks.length).map (getV tasks)) := by
  intro tasks
  induction tasks with
  | nil => intro _; rfl
  | cons x xs ih =>
    intro h
    have hx := h x (List.mem_cons_self x xs)
    cases x with
    | none => simp at hx
    | some r =>
      have hr := ih (fun y hy => h y (List.mem_cons_of_mem _ hy))
      have hshift : ((List.range xs.length).map Nat.succ).map (getV (some r :: xs)) =
          (List.range xs.length).map (getV xs) := by
        rw [List.map_map]
        rfl
      simp only [mapMO, hr, List.length_cons, List.range_succ_eq_map, List.map_cons]
      rw [hshift]
      rfl

theorem gather_eq (tasks : List (Option Str)) (order : List Nat)
    (hperm : order.Perm (List.range tasks.length)) :
    gatherModel order tasks = mapMO (fun o => o) tasks := by
  by_cases hall : ∀ x ∈ tasks, x.isSome = true
  · have hev : ∀ i ∈ order, taskEvent tasks i = some (i, getV tasks i) := by
      intro i hi
      have hir : i ∈ List.range tasks.length := hperm.mem_iff.mp hi
      have hilt : i < tasks.length := List.mem_range.mp hir
      cases hg : tasks.get? i with
      | none =>
        have := List.get?_eq_none.mp hg
        omega
      | some x =>
        have hxs := hall x (List.get?_mem hg)
        cases x with
        | none => simp at hxs
        | some r =>
          unfold taskEvent getV
          rw [hg]
    have hevents := mapMO_congr_some (taskEvent tasks) (fun j => (j, getV tasks j))
      order hev
    have hfillfun : ∀ i ∈ List.range tasks.length,
        ((order.map (fun j => (j, getV tasks j))).find?
          (fun p => p.1 == i)).map Prod.snd = some (getV tasks i) := by
      intro i hi
      rw [find?_keyed (getV tasks) i order (hperm.mem_iff.mpr hi)]
      rfl
    have hfill := mapMO_congr_some
      (fun i => ((order.map (fun j => (j, getV tasks j))).find?
        (fun p => p.1 == i)).map Prod.snd)
      (getV tasks) (List.range tasks.length) hfillfun
    unfold gatherModel
    rw [hevents]
    dsimp only
    unfold slotFill
    rw [hfill, mapMO_id_getV tasks hall]
  · obtain ⟨x, hxmem, hxs⟩ : ∃ x ∈ tasks, x = none := by
      push_neg at hall
      obtain ⟨x, hx1, hx2⟩ := hall
      refine ⟨x, hx1, ?_⟩
      cases x
      · rfl
      · simp at hx2
    subst hxs
    rcases List.get?_of_mem hxmem with ⟨i, hi⟩
    have hilt : i < tasks.length := by
      by_contra hge
      rw [List.get?_eq_none.mpr (by omega)] at hi
      cases hi
    have hio : i ∈ order := hperm.mem_iff.mpr (List.mem_range.mpr hilt)
    have hl : mapMO (taskEvent tasks) order = none :=
      mapMO_none_of_mem (taskEvent tasks) order
        ⟨i, hio, by unfold taskEvent; rw [hi]⟩
    have hr : mapMO (fun o => o) tasks = none :=
      mapMO_none_of_mem (fun o => o) tasks ⟨none, hxmem, rfl⟩
    unfold gatherModel
    rw [hl, hr]

/-- C6: for every cue sequence handed to the translation engine and every
completion order of the concurrent per-cue requests (any permutation of the
request indices), the gathered result equals the in-order sequencing of the
per-cue translations, and position `i` of a successful result is exactly the
translation of cue `i`. -/
theorem translation_order_preserved (entries : List Cue) (oracle : Str → Option Str)
    (order : List Nat)
    (hperm : order.Perm (List.range entries.length)) :
    gatherModel order (entries.map (fun e => oracle e.text)) =
      mapMO (fun e => oracle e.text) entries ∧
    (∀ texts, mapMO (fun e => oracle e.text) entries = some texts →
      ∀ i, texts.get? i = (entries.get? i).bind (fun e => oracle e.text)) := by
  constructor
  · have hlen : (entries.map (fun e => oracle e.text)).length = entries.length := by
      simp
    have hg := gather_eq (entries.map (fun e => oracle e.text)) order
      (by rw [hlen]; exact hperm)
    rw [hg, mapMO_map]
  · intro texts ht i
    exact mapMO_get? (fun e => oracle e.text) entries texts ht i

theorem translation_order_preserved_witness :
    gatherModel [1, 0]
      (([⟨("00:00:01.000").data, ("00:00:02.000").data, ("a").data⟩,
        ⟨("00:00:03.000").data, ("00:00:04.000").data, ("b").data⟩] : List Cue).map
        (fun e => wOracleOk e.text)) =
      mapMO (fun e => wOracleOk e.text)
        ([⟨("00:00:01.000").data, ("00:00:02.000").data, ("a").data⟩,
          ⟨("00:00:03.000").data, ("00:00:04.000").data, ("b").data⟩] : List Cue) :=
  (translation_order_preserved
    ([⟨("00:00:01.000").data, ("00:00:02.000").data, ("a").data⟩,
      ⟨("00:00:03.000").data, ("00:00:04.000").data, ("b").data⟩] : List Cue)
    wOracleOk [1, 0] (by decide)).1

theorem dotComma_eq_iff (c x : Char) (h1 : x ≠ ',') (h2 : x ≠ '.') :
    dotComma c = x ↔ c = x := by
  by_cases hc : c = '.'
  · subst hc
    simp [dotComma]
    constructor
    · intro h; exact absurd h.symm h1
    · intro h; exact absurd h.symm h2
  · simp [dotComma, hc]

theorem arrow_chars : ∀ c x, x ∈ arrowSep → (dotComma c = x ↔ c = x) := by
  intro c x hx
  have hx' : x = ' ' ∨ x = '-' ∨ x = '>' := by
    simp [arrowSep, arrowTail] at hx
    tauto
  rcases hx' with rfl | rfl | rfl
  · exact dotComma_eq_iff c ' ' (by decide) (by decide)
  · exact dotComma_eq_iff c '-' (by decide) (by decide)
  · exact dotComma_eq_iff c '>' (by decide) (by decide)

theorem map_dotComma_arrowSep : arrowSep.map dotComma = arrowSep := by decide

theorem dotComma_isDigit (c : Char) : (dotComma c).isDigit = c.isDigit := by
  by_cases hc : c = '.'
  · subst hc; decide
  · simp [dotComma, hc]

theorem dotComma_beq_colon (c : Char) : (dotComma c == ':') = (c == ':') := by
  by_cases hc : c = '.'
  · subst hc; decide
  · simp [dotComma, hc]

theorem dotComma_ne_nl (c : Char) (h : c ≠ '\n') : dotComma c ≠ '\n' := by
  intro he
  exact h ((dotComma_eq_iff c '\n' (by decide) (by decide)).mp he)

theorem isPrefixOf_map (f : Char → Char) :
    ∀ (p l : Str), (∀ c x, x ∈ p → (f c = x ↔ c = x)) →
      p.isPrefixOf (l.map f) = p.isPrefixOf l := by
  intro p
  induction p with
  | nil => intro l _; simp [List.isPrefixOf]
  | cons a as ih =>
    intro l h
    cases l with
    | nil => simp
    | cons c cs =>
      have hiff := h c a (List.mem_cons_self a as)
      have hhead : (a == f c) = (a == c) := by
        by_cases hac : a = c
        · subst hac
          rw [hiff.mpr rfl]
        · have hfc : ¬ a = f c := fun he => hac ((hiff.mp he.symm).symm)
          rw [beq_eq_false_iff_ne.mpr hfc, beq_eq_false_iff_ne.mpr hac]
      simp only [List.map_cons, List.isPrefixOf, hhead]
      rw [ih cs (fun c x hx => h c x (List.mem_cons_of_mem a hx))]

theorem splitCore_map (s : Char) (ss : Str) (f : Char → Char)
    (hf : ∀ c x, x ∈ s :: ss → (f c = x ↔ c = x)) :
    ∀ l : Str, splitOnSepCore s ss (l.map f) = (splitOnSepCore s ss l).map (List.map f) := by
  intro l
  induction l using splitOnSepCore.induct s ss with
  | case1 => simp [splitOnSepCore]
  | case2 c rest h ih =>
    have hmapped : (s :: ss).isPrefixOf (f c :: rest.map f) = true := by
      have hm := isPrefixOf_map f (s :: ss) (c :: rest) hf
      rw [List.map_cons] at hm
      rw [hm]
      exact h
    rw [List.map_cons]
    simp only [splitOnSepCore]
    rw [dif_pos hmapped, dif_pos h]
    have hdrop : (rest.map f).drop ss.length = (rest.drop ss.length).map f := by
      rw [List.map_drop]
    rw [hdrop, ih]
    rfl
  | case3 c rest h p ps hrec ih =>
    have hmapped : (s :: ss).isPrefixOf (f c :: rest.map f) = false := by
      have hm := isPrefixOf_map f (s :: ss) (c :: rest) hf
      rw [List.map_cons] at hm
      rw [hm]
      exact Bool.eq_false_iff.mpr h
    rw [List.map_cons]
    simp only [splitOnSepCore]
    rw [dif_neg (by rw [hmapped]; exact Bool.false_ne_true), dif_neg h]
    rw [ih, hrec]
    rfl
  | case4 c rest h hrec ih => exact absurd hrec (splitCore_ne_nil s ss rest)

theorem isTC_map (l : Str) : isTC (l.map dotComma) = isTC l := by
  rcases l with _ | ⟨a0, _ | ⟨a1, _ | ⟨a2, _ | ⟨a3, _ | ⟨a4, _ | ⟨a5, _ | ⟨a6, _ | ⟨a7, t⟩⟩⟩⟩⟩⟩⟩⟩ <;>
    simp [isTC, dotComma_isDigit, dotComma_beq_colon]

theorem isTC_append_ge (a b : Str) (h : 8 ≤ a.length) : isTC (a ++ b) = isTC a := by
  rcases a with _ | ⟨a0, _ | ⟨a1, _ | ⟨a2, _ | ⟨a3, _ | ⟨a4, _ | ⟨a5, _ | ⟨a6, _ | ⟨a7, t⟩⟩⟩⟩⟩⟩⟩⟩ <;>
    first
      | (simp only [List.length_nil, List.length_cons] at h; omega)
      | simp [isTC, List.cons_append]

theorem isTC_get (l : Str) (h : isTC l = true) :
    ∀ i < 8, ∃ c, l.get? i = some c ∧ (c.isDigit = true ∨ c = ':') := by
  rcases l with _ | ⟨a0, _ | ⟨a1, _ | ⟨a2, _ | ⟨a3, _ | ⟨a4, _ | ⟨a5, _ | ⟨a6, _ | ⟨a7, t⟩⟩⟩⟩⟩⟩⟩⟩ <;>
    try simp [isTC] at h
  intro i hi
  interval_cases i <;> simp [List.get?] <;> tauto

theorem isTC_append_space (a b : Str) (h : isTC (a ++ ' ' :: b) = true) :
    8 ≤ a.length := by
  by_contra hlt
  push_neg at hlt
  obtain ⟨c, hc, hprop⟩ := isTC_get (a ++ ' ' :: b) h a.length hlt
  have hsp : (a ++ ' ' :: b).get? a.length = some ' ' := by
    rw [List.get?_append_right (le_refl a.length)]
    simp
  rw [hsp] at hc
  obtain rfl : ' ' = c := by injection hc
  rcases hprop with hd | hcol
  · exact absurd hd (by decide)
  · exact absurd hcol (by decide)

theorem isTC_digits_false (l : Str) (h : ∀ c ∈ l, c.isDigit = true) : isTC l = false := by
  rcases l with _ | ⟨a0, _ | ⟨a1, _ | ⟨a2, _ | ⟨a3, _ | ⟨a4, _ | ⟨a5, _ | ⟨a6, _ | ⟨a7, t⟩⟩⟩⟩⟩⟩⟩⟩ <;>
    try rfl
  have h2 := h a2 (by simp)
  have hne : (a2 == ':') = false := by
    refine beq_eq_false_iff_ne.mpr (fun he => ?_)
    rw [he] at h2
    exact absurd h2 (by decide)
  simp [isTC, hne]

theorem digitChar_isDigit (m : Nat) (h : m < 10) : (Nat.digitChar m).isDigit = true := by
  interval_cases m <;> decide

theorem toDigitsCore_digits :
    ∀ (fuel n : Nat) (acc : Str), (∀ c ∈ acc, c.isDigit = true) →
      ∀ c ∈ Nat.toDigitsCore 10 fuel n acc, c.isDigit = true := by
  intro fuel
  induction fuel with
  | zero =>
    intro n acc hacc c hc
    exact hacc c (by simpa [Nat.toDigitsCore] using hc)
  | succ fu ih =>
    intro n acc hacc c hc
    have hd : (Nat.digitChar (n % 10)).isDigit = true :=
      digitChar_isDigit _ (Nat.mod_lt _ (by omega))
    simp only [Nat.toDigitsCore] at hc
    split at hc
    · rcases List.mem_cons.mp hc with rfl | hmem
      · exact hd
      · exact hacc c hmem
    · refine ih (n / 10) (Nat.digitChar (n % 10) :: acc) ?_ c hc
      intro x hx
      rcases List.mem_cons.mp hx with rfl | hxm
      · exact hd
      · exact hacc x hxm

theorem natChars_digits (n : Nat) : ∀ c ∈ natChars n, c.isDigit = true := by
  intro c hc
  exact toDigitsCore_digits (n + 1) n [] (by simp) c hc

theorem natChars_no_nl (n : Nat) : '\n' ∉ natChars n := by
  intro h
  exact absurd (natChars_digits n '\n' h) (by decide)

theorem isTC_natChars (n : Nat) : isTC (natChars n) = false :=
  isTC_digits_false _ (natChars_digits n)

theorem splitNl_no_nl : ∀ a : Str, '\n' ∉ a → splitNl a = [a] := by
  intro a
  induction a with
  | nil => intro _; simp [splitNl, splitOnSepCore]
  | cons c rest ih =>
    intro h
    have hc : c ≠ '\n' := by
      intro he
      exact h (by rw [he]; exact List.mem_cons_self '\n' rest)
    have hpre : (('\n' :: ([] : Str)).isPrefixOf (c :: rest)) = false := by
      simp only [List.isPrefixOf, Bool.and_true]
      exact beq_eq_false_iff_ne.mpr (fun he => hc he.symm)
    unfold splitNl at ih ⊢
    rw [splitOnSepCore, dif_neg (by rw [hpre]; exact Bool.false_ne_true)]
    rw [ih (fun hm => h (List.mem_cons_of_mem c hm))]

theorem splitNl_append : ∀ a b : Str, '\n' ∉ a →
    splitNl (a ++ '\n' :: b) = a :: splitNl b := by
  intro a
  induction a with
  | nil =>
    intro b _
    show splitOnSepCore '\n' [] ('\n' :: b) = [] :: splitOnSepCore '\n' [] b
    rw [splitOnSepCore, dif_pos (by simp [List.isPrefixOf])]
    rw [List.length_nil, List.drop_zero]
  | cons c rest ih =>
    intro b h
    have hc : c ≠ '\n' := by
      intro he
      exact h (by rw [he]; exact List.mem_cons_self '\n' rest)
    have hpre : (('\n' :: ([] : Str)).isPrefixOf (c :: (rest ++ '\n' :: b))) = false := by
      simp only [List.isPrefixOf, Bool.and_true]
      exact beq_eq_false_iff_ne.mpr (fun he => hc he.symm)
    show splitOnSepCore '\n' [] (c :: (rest ++ '\n' :: b)) = (c :: rest) :: splitNl b
    rw [splitOnSepCore, dif_neg (by rw [hpre]; exact Bool.false_ne_true)]
    have hr := ih b (fun hm => h (List.mem_cons_of_mem c hm))
    unfold splitNl at hr
    rw [hr]
    rfl

theorem splitNl_parts : ∀ l : Str, ∀ p ∈ splitNl l, '\n' ∉ p := by
  intro l
  unfold splitNl
  induction l using splitOnSepCore.induct '\n' [] with
  | case1 =>
    intro p hp
    simp only [splitOnSepCore] at hp
    rcases List.mem_singleton.mp hp with rfl
    exact List.not_mem_nil '\n'
  | case2 c rest h ih =>
    intro p hp
    rw [splitOnSepCore, dif_pos h] at hp
    rcases List.mem_cons.mp hp with rfl | hmem
    · exact List.not_mem_nil '\n'
    · exact ih p hmem
  | case3 c rest h q qs hrec ih =>
    intro p hp
    have hc : c ≠ '\n' := by
      intro he
      apply h
      rw [he]
      simp [List.isPrefixOf]
    rw [splitOnSepCore, dif_neg h, hrec] at hp
    rcases List.mem_cons.mp hp with rfl | hmem
    · intro hin
      rcases List.mem_cons.mp hin with he | hq
      · exact hc he.symm
      · exact ih q (by rw [hrec]; exact List.mem_cons_self q qs) hq
    · exact ih p (by rw [hrec]; exact List.mem_cons_of_mem q hmem)
  | case4 c rest h hrec ih => exact absurd hrec (splitCore_ne_nil '\n' [] rest)

theorem joinSep_cons_cons (sep : Str) (p q : Str) (qs : List Str) :
    joinSep sep (p :: q :: qs) = p ++ sep ++ joinSep sep (q :: qs) := rfl

theorem splitNl_joinNl : ∀ parts : List Str, parts ≠ [] →
    (∀ p ∈ parts, '\n' ∉ p) →
    splitNl (joinSep ['\n'] parts) = parts := by
  intro parts
  induction parts with
  | nil => intro h _; exact absurd rfl h
  | cons p ps ih =>
    intro _ hfree
    cases ps with
    | nil =>
      show splitNl (joinSep ['\n'] [p]) = [p]
      have : joinSep ['\n'] [p] = p := rfl
      rw [this]
      exact splitNl_no_nl p (hfree p (List.mem_cons_self p []))
    | cons q qs =>
      rw [joinSep_cons_cons]
      have happ : p ++ ['\n'] ++ joinSep ['\n'] (q :: qs) =
          p ++ '\n' :: joinSep ['\n'] (q :: qs) := by
        simp
      rw [happ, splitNl_append p _ (hfree p (List.mem_cons_self p (q :: qs)))]
      rw [ih (by simp) (fun x hx => hfree x (List.mem_cons_of_mem p hx))]

theorem parseLoop_good :
    ∀ lines : List Str, (∀ l ∈ lines, '\n' ∉ l) →
      ∀ cs, parseLoop lines = some cs → ∀ c ∈ cs, GoodCue c := by
  intro lines
  induction lines using parseLoop.induct with
  | case1 =>
    intro _ cs hp c hc
    simp only [parseLoop, Option.some.injEq] at hp
    subst hp
    exact absurd hc (List.not_mem_nil c)
  | case2 l rest hTC st en hsplit cs0 hrec ih =>
    intro hfree cs hp c hc
    rw [parseLoop, if_pos hTC, hsplit, hrec] at hp
    simp only [Option.some.injEq] at hp
    subst hp
    have hline : l = st ++ arrowSep ++ en := by
      have hj := joinSep_splitCore ' ' arrowTail l
      unfold splitArrow at hsplit
      rw [hsplit] at hj
      have hred : joinSep (' ' :: arrowTail) [st, en] = st ++ arrowSep ++ en := rfl
      rw [hred] at hj
      exact hj.symm
    rcases List.mem_cons.mp hc with rfl | hc0
    · refine ⟨?_, ?_, ?_, ?_⟩
      · show isTC (st ++ arrowSep ++ en) = true
        rw [← hline]
        exact hTC
      · show splitArrow (st ++ arrowSep ++ en) = [st, en]
        rw [← hline]
        exact hsplit
      · intro hm
        exact hfree l (List.mem_cons_self l rest)
          (by rw [hline]; exact List.mem_append_left _ (List.mem_append_left _ hm))
      · intro hm
        exact hfree l (List.mem_cons_self l rest)
          (by rw [hline]; exact List.mem_append_right _ hm)
    · refine ih ?_ cs0 hrec c hc0
      intro x hx
      exact hfree x (List.mem_cons_of_mem l (List.drop_subset 2 rest hx))
  | case3 l rest hTC st en hsplit hrec ih =>
    intro _ cs hp
    rw [parseLoop, if_pos hTC, hsplit, hrec] at hp
    exact absurd hp (by simp)
  | case4 l rest hTC hnotwo =>
    intro _ cs hp
    rw [parseLoop, if_pos hTC] at hp
    rcases hs : splitArrow l with _ | ⟨a, _ | ⟨b, _ | ⟨c', t⟩⟩⟩
    · rw [hs] at hp
      exact absurd hp (by simp)
    · rw [hs] at hp
      exact absurd hp (by simp)
    · exact absurd hs (fun hs => hnotwo a b hs)
    · rw [hs] at hp
      exact absurd hp (by simp)
  | case5 l rest hTC ih =>
    intro hfree cs hp c hc
    rw [parseLoop, if_neg hTC] at hp
    exact ih (fun x hx => hfree x (List.mem_cons_of_mem l hx)) cs hp c hc

theorem combineLoop_blocks :
    ∀ (entries : List Cue) (texts : List Str) (i : Nat),
      entries.length ≤ texts.length →
      combineLoop i entries texts = some (blocksFlat i entries texts) := by
  intro entries
  induction entries with
  | nil => intro texts i _; rfl
  | cons e es ih =>
    intro texts i hlen
    cases texts with
    | nil => simp at hlen
    | cons t ts =>
      have hr := ih ts (i + 1) (by
        simp only [List.length_cons] at hlen
        omega)
      simp [combineLoop, hr, blocksFlat, cueLine]

theorem blocksFlat_no_nl :
    ∀ (entries : List Cue) (texts : List Str) (i : Nat),
      (∀ c ∈ entries, GoodCue c) → (∀ t ∈ texts, '\n' ∉ t) →
      ∀ p ∈ blocksFlat i entries texts, '\n' ∉ p := by
  intro entries
  induction entries with
  | nil => intro texts i _ _ p hp; simp [blocksFlat] at hp
  | cons e es ih =>
    intro texts i hg ht p hp
    cases texts with
    | nil => simp [blocksFlat] at hp
    | cons t ts =>
      simp only [blocksFlat] at hp
      rcases List.mem_cons.mp hp with rfl | hp1
      · exact natChars_no_nl (i + 1)
      rcases List.mem_cons.mp hp1 with rfl | hp2
      · have hge := hg e (List.mem_cons_self e es)
        intro hin
        unfold cueLine at hin
        rcases List.mem_append.mp hin with hin1 | hin2
        · rcases List.mem_append.mp hin1 with hinA | hinB
          · rcases List.mem_map.mp hinA with ⟨c, hc, hcc⟩
            have hcn : c = '\n' := (dotComma_eq_iff c '\n' (by decide) (by decide)).mp hcc
            subst hcn
            exact hge.2.2.1 hc
          · exact absurd hinB (by decide)
        · rcases List.mem_map.mp hin2 with ⟨c, hc, hcc⟩
          have hcn : c = '\n' := (dotComma_eq_iff c '\n' (by decide) (by decide)).mp hcc
          subst hcn
          exact hge.2.2.2 hc
      rcases List.mem_cons.mp hp2 with rfl | hp3
      · exact ht _ (List.mem_cons_self _ ts)
      rcases List.mem_cons.mp hp3 with rfl | hp4
      · exact List.not_mem_nil '\n'
      · exact ih ts (i + 1) (fun c hc => hg c (List.mem_cons_of_mem e hc))
          (fun x hx => ht x (List.mem_cons_of_mem t hx)) p hp4

theorem parseLoop_blocks :
    ∀ (entries : List Cue) (texts : List Str) (i : Nat),
      entries.length = texts.length → (∀ c ∈ entries, GoodCue c) →
      ∃ cs, parseLoop (blocksFlat i entries texts) = some cs ∧
        cs.map (fun c => (c.start_time, c.end_time)) =
          entries.map (fun c => (c.start_time.map dotComma, c.end_time.map dotComma)) := by
  intro entries
  induction entries with
  | nil =>
    intro texts i _ _
    exact ⟨[], by simp [blocksFlat, parseLoop], rfl⟩
  | cons e es ih =>
    intro texts i hlen hg
    cases texts with
    | nil => simp at hlen
    | cons t ts =>
      obtain ⟨cs', hp', hmap'⟩ := ih ts (i + 1)
        (by simp only [List.length_cons] at hlen ⊢; omega)
        (fun c hc => hg c (List.mem_cons_of_mem e hc))
      obtain ⟨hTC0, hsplit0, hnl1, hnl2⟩ := hg e (List.mem_cons_self e es)
      have hcue_eq : cueLine e = (e.start_time ++ arrowSep ++ e.end_time).map dotComma := by
        unfold cueLine
        rw [List.map_append, List.map_append, map_dotComma_arrowSep]
      have hTCc : isTC (cueLine e) = true := by
        rw [hcue_eq, isTC_map]
        exact hTC0
      have hsplitc : splitArrow (cueLine e) =
          [e.start_time.map dotComma, e.end_time.map dotComma] := by
        rw [hcue_eq]
        unfold splitArrow
        rw [splitCore_map ' ' arrowTail dotComma
          (fun c x hx => arrow_chars c x (by simpa [arrowSep] using hx))
          (e.start_time ++ arrowSep ++ e.end_time)]
        unfold splitArrow at hsplit0
        rw [hsplit0]
        rfl
      have hstep : parseLoop (blocksFlat i (e :: es) (t :: ts)) =
          some (⟨e.start_time.map dotComma, e.end_time.map dotComma,
            trimChars (joinSep ['\n']
              ((t :: [] :: blocksFlat (i + 1) es ts).take 2))⟩ :: cs') := by
        show parseLoop (natChars (i + 1) :: cueLine e :: t :: [] ::
          blocksFlat (i + 1) es ts) = _
        rw [parseLoop, if_neg (by rw [isTC_natChars]; exact Bool.false_ne_true)]
        rw [parseLoop, if_pos hTCc, hsplitc]
        rw [show List.drop 2 (t :: [] :: blocksFlat (i + 1) es ts) =
          blocksFlat (i + 1) es ts from rfl]
        rw [hp']
      refine ⟨_, hstep, ?_⟩
      simp [hmap']

/-- C5 (amended): for every well-formed document (one the parser accepts)
and every same-length translated-text sequence whose texts contain no
newline, serializing and re-parsing yields cues whose start and end times
are exactly the originals with every dot separator replaced by a comma
(text ignored).  Multi-line translated texts can break this, see the
counterexample. -/
theorem round_trip (doc : Str) (entries : List Cue) (texts : List Str)
    (hp : parse_vtt doc = some entries)
    (hlen : texts.length = entries.length)
    (ht : ∀ t ∈ texts, '\n' ∉ t) :
    ∃ out cs, combine_srt entries texts = some out ∧ parse_vtt out = some cs ∧
      cs.map (fun c => (c.start_time, c.end_time)) =
        entries.map (fun c => (c.start_time.map dotComma, c.end_time.map dotComma)) := by
  have hgood : ∀ c ∈ entries, GoodCue c :=
    parseLoop_good (splitNl doc) (splitNl_parts doc) entries hp
  have hcb : combineLoop 0 entries texts = some (blocksFlat 0 entries texts) :=
    combineLoop_blocks entries texts 0 (by omega)
  have hout : combine_srt entries texts =
      some (joinSep ['\n'] (blocksFlat 0 entries texts)) := by
    unfold combine_srt
    rw [hcb]
    rfl
  cases entries with
  | nil =>
    have htx : texts = [] := List.length_eq_zero.mp (by simpa using hlen)
    subst htx
    refine ⟨_, [], hout, ?_, rfl⟩
    show parse_vtt (joinSep ['\n'] (blocksFlat 0 [] [])) = some []
    rw [show joinSep ['\n'] (blocksFlat 0 ([] : List Cue) ([] : List Str)) =
      ([] : Str) from rfl]
    show parseLoop (splitNl []) = some []
    rw [show splitNl ([] : Str) = [[]] from by simp [splitNl, splitOnSepCore]]
    rw [parseLoop, if_neg (by rw [show isTC [] = false from rfl]; exact Bool.false_ne_true)]
    simp [parseLoop]
  | cons e es =>
    cases texts with
    | nil => exact absurd hlen (by simp)
    | cons t ts =>
      obtain ⟨cs, hpl, hmap⟩ := parseLoop_blocks (e :: es) (t :: ts) 0 hlen.symm hgood
      refine ⟨_, cs, hout, ?_, hmap⟩
      show parse_vtt (joinSep ['\n'] (blocksFlat 0 (e :: es) (t :: ts))) = some cs
      unfold parse_vtt
      rw [splitNl_joinNl (blocksFlat 0 (e :: es) (t :: ts))
        (by simp [blocksFlat])
        (blocksFlat_no_nl (e :: es) (t :: ts) 0 hgood ht)]
      exact hpl

theorem round_trip_witness :
    ∃ out cs, combine_srt [ceEntry] [("hi").data] = some out ∧
      parse_vtt out = some cs ∧
      cs.map (fun c => (c.start_time, c.end_time)) =
        [ceEntry].map (fun c => (c.start_time.map dotComma, c.end_time.map dotComma)) :=
  round_trip ceDoc [ceEntry] [("hi").data]
    (by simp +decide [parse_vtt, parseLoop, splitNl, splitArrow, splitOnSepCore, isTC,
      trimChars, joinSep, arrowTail, ceDoc, ceEntry])
    (by decide) (by decide)

/-- C5 counterexample: the claim quantifies over every same-length
translated-text sequence, but a translated text of three lines whose third
line looks like a timing line makes the re-parse produce two cues instead of
one, so the re-parsed start and end times are not the originals with dots
turned to commas. -/
theorem round_trip_counterexample :
    parse_vtt ceDoc = some [ceEntry] ∧
    ([ceText] : List Str).length = [ceEntry].length ∧
    combine_srt [ceEntry] [ceText] = some ceOut ∧
    (parse_vtt ceOut).map (List.map (fun c => (c.start_time, c.end_time))) ≠
      some ([ceEntry].map
        (fun c => (c.start_time.map dotComma, c.end_time.map dotComma))) := by
  refine ⟨?_, rfl, ?_, ?_⟩
  · simp +decide [parse_vtt, parseLoop, splitNl, splitArrow, splitOnSepCore, isTC,
      trimChars, joinSep, arrowTail, ceDoc, ceEntry]
  · decide
  · have hpo : parse_vtt ceOut = some
        [⟨("00:00:01,000").data, ("00:00:02,000").data, ("a\nb").data⟩,
         ⟨("00:00:05.000").data, ("00:00:06.000").data, ([] : Str)⟩] := by
      simp +decide [parse_vtt, parseLoop, splitNl, splitArrow, splitOnSepCore, isTC,
        trimChars, joinSep, arrowTail, ceOut]
    rw [hpo]
    decide
